import Mathlib

/-!
Verification of the PNG-to-OTBM converter.

The development shallowly embeds the two core source modules:

* the OTBM binary writer (`OTBMWriter` class: escaped byte primitives,
  node markers, tile/area serialization, `generate`);
* the application pipeline (`PNGToOTBMApp`: `_analyzeColors` palette
  scan, `_generateOTBM` validation + per-pixel tile planning).

The byte buffer is modelled as a `List Nat` of byte values; JavaScript
`v & 0xFF` on a non-negative integer is `v % 256`, `v >> 8` is
`v / 256`, and so on.  JavaScript `Map` objects (insertion-ordered,
set-in-place) are modelled as association lists updated in place with
new keys appended at the end.
-/

namespace PngToOtbm

/-! ### OTBM control characters, node types and attributes (source constants) -/

def NODE_START : Nat := 0xFE
def NODE_END : Nat := 0xFF
def ESCAPE : Nat := 0xFD

def OTBM_ROOTV1 : Nat := 1
def OTBM_MAP_DATA : Nat := 2
def OTBM_TILE_AREA : Nat := 4
def OTBM_TILE : Nat := 5
def OTBM_ITEM : Nat := 6
def OTBM_TOWNS : Nat := 12
def OTBM_WAYPOINTS : Nat := 15

def OTBM_ATTR_DESCRIPTION : Nat := 1
def OTBM_ATTR_ITEM : Nat := 9

/-- A map tile as stored by `OTBMWriter.addTile`. -/
structure Tile where
  x : Nat
  y : Nat
  z : Nat
  groundId : Nat
  items : List Nat
deriving DecidableEq

/-- A 256x256 tile area as built inside `OTBMWriter._writeMapData`. -/
structure Area where
  areaX : Nat
  areaY : Nat
  z : Nat
  tiles : List Tile
deriving DecidableEq

/-- The `OTBMWriter` state: constructor arguments plus the tile list.
The description is modelled as its UTF-8 byte sequence. -/
structure OTBMWriter where
  width : Nat
  height : Nat
  description : List Nat
  tiles : List Tile
  otbmVersion : Nat
  otbMajorVersion : Nat
  otbMinorVersion : Nat
deriving DecidableEq

namespace OTBMWriter

/-- `addTile`: pushes a tile onto the writer's tile list (no validation). -/
def addTile (w : OTBMWriter) (x y z groundId : Nat) (items : List Nat) : OTBMWriter :=
  { w with tiles := w.tiles ++ [⟨x, y, z, groundId, items⟩] }

/-- `_writeByte`: one raw byte, masked with `& 0xFF`. -/
def writeByte (v : Nat) : List Nat :=
  [v % 256]

/-- `_writeEscapedByte`: mask with `& 0xFF`, then put a single `ESCAPE`
byte in front iff the value is `NODE_START`, `NODE_END` or `ESCAPE`. -/
def writeEscapedByte (v : Nat) : List Nat :=
  if v % 256 = NODE_START ∨ v % 256 = NODE_END ∨ v % 256 = ESCAPE then
    [ESCAPE, v % 256]
  else
    [v % 256]

/-- `_writeEscapedBytes`: each byte of the sequence is escaped. -/
def writeEscapedBytes (bs : List Nat) : List Nat :=
  bs.flatMap writeEscapedByte

/-- `_writeU16`: little-endian 16-bit value, both bytes escaped. -/
def writeU16 (v : Nat) : List Nat :=
  writeEscapedByte (v % 256) ++ writeEscapedByte (v / 256 % 256)

/-- `_writeU32`: little-endian 32-bit value, all four bytes escaped. -/
def writeU32 (v : Nat) : List Nat :=
  writeEscapedByte (v % 256) ++ writeEscapedByte (v / 256 % 256) ++
    writeEscapedByte (v / 65536 % 256) ++ writeEscapedByte (v / 16777216 % 256)

/-- `_writeString`: escaped u16 byte length, then the escaped bytes
(`TextEncoder` output is taken as the byte list itself). -/
def writeString (s : List Nat) : List Nat :=
  writeU16 s.length ++ writeEscapedBytes s

/-- `_startNode`: raw `NODE_START` marker then the raw node-type byte. -/
def startNode (nodeType : Nat) : List Nat :=
  NODE_START :: writeByte nodeType

/-- `_endNode`: raw `NODE_END` marker. -/
def endNode : List Nat :=
  [NODE_END]

/-- `_writeTile`: TILE node with offset bytes, ground-item attribute and
nested ITEM nodes. -/
def writeTile (t : Tile) (baseX baseY : Nat) : List Nat :=
  startNode OTBM_TILE ++
    writeEscapedByte (t.x - baseX) ++ writeEscapedByte (t.y - baseY) ++
    writeByte OTBM_ATTR_ITEM ++ writeU16 t.groundId ++
    (t.items.flatMap fun itemId => startNode OTBM_ITEM ++ writeU16 itemId ++ endNode) ++
    endNode

/-- `_writeTileArea`: TILE_AREA node with base coordinates, floor and tiles. -/
def writeTileArea (a : Area) : List Nat :=
  startNode OTBM_TILE_AREA ++
    writeU16 a.areaX ++ writeU16 a.areaY ++ writeEscapedByte a.z ++
    (a.tiles.flatMap fun t => writeTile t a.areaX a.areaY) ++
    endNode

/-- One step of the area-grouping loop in `_writeMapData`: the tile is
appended to the area whose key `(x & 0xFF00, y & 0xFF00, z)` matches,
or a fresh area is appended at the end (JavaScript `Map` insertion
order). -/
def insertTile (areas : List Area) (t : Tile) : List Area :=
  match areas with
  | [] => [⟨t.x &&& 0xFF00, t.y &&& 0xFF00, t.z, [t]⟩]
  | a :: rest =>
    if a.areaX = t.x &&& 0xFF00 ∧ a.areaY = t.y &&& 0xFF00 ∧ a.z = t.z then
      ⟨a.areaX, a.areaY, a.z, a.tiles ++ [t]⟩ :: rest
    else
      a :: insertTile rest t

/-- The area grouping performed by `_writeMapData` over `this.tiles`. -/
def groupAreas (tiles : List Tile) : List Area :=
  tiles.foldl insertTile []

/-- `_writeMapData`: MAP_DATA node with the description attribute, the
tile areas, an empty TOWNS node and (for version >= 2) an empty
WAYPOINTS node. -/
def writeMapData (w : OTBMWriter) : List Nat :=
  startNode OTBM_MAP_DATA ++
    writeByte OTBM_ATTR_DESCRIPTION ++ writeString w.description ++
    ((groupAreas w.tiles).flatMap writeTileArea) ++
    startNode OTBM_TOWNS ++ endNode ++
    (if 2 ≤ w.otbmVersion then startNode OTBM_WAYPOINTS ++ endNode else []) ++
    endNode

/-- `_writeRootHeader`: u32 otbmVersion, u16 width, u16 height,
u32 otbMajorVersion, u32 otbMinorVersion. -/
def writeRootHeader (w : OTBMWriter) : List Nat :=
  writeU32 w.otbmVersion ++ writeU16 w.width ++ writeU16 w.height ++
    writeU32 w.otbMajorVersion ++ writeU32 w.otbMinorVersion

/-- `generate`: the magic bytes, then the root node containing the
header and the map data. -/
def generate (w : OTBMWriter) : List Nat :=
  [0x4F, 0x54, 0x42, 0x4D] ++
    startNode OTBM_ROOTV1 ++ writeRootHeader w ++ writeMapData w ++ endNode

end OTBMWriter

/-! ### Specification-side decoder for the escaping rule

`unescape` strips exactly one `ESCAPE` prefix from each escaped byte and
rejects a bare `NODE_START`/`NODE_END`/`ESCAPE` inside payload.  It is
the reading direction of the escaping rule stated by the spec. -/

def unescape : List Nat → Option (List Nat)
  | [] => some []
  | b :: rest =>
    if b = ESCAPE then
      match rest with
      | [] => none
      | c :: rest2 => (unescape rest2).map fun l => c :: l
    else if b = NODE_START ∨ b = NODE_END then none
    else (unescape rest).map fun l => b :: l

/-! ### Specification-side marker scan

`markStep`/`markRun` walk a byte stream left to right and count the
unescaped `NODE_START` (`starts`) and `NODE_END` (`ends`) marker bytes;
a byte directly following an unescaped `ESCAPE` is payload and is not
counted.  `mind` is the minimum over all prefixes of the scanned stream
of `starts - ends` (the depth), so `0 ≤ mind` says that in no prefix do
the end markers outnumber the start markers. -/

structure MarkScan where
  esc : Bool
  starts : Nat
  ends : Nat
  mind : Int
deriving DecidableEq

def markStep (s : MarkScan) (b : Nat) : MarkScan :=
  if s.esc then { s with esc := false }
  else if b = NODE_START then
    { s with starts := s.starts + 1, mind := min s.mind ((s.starts + 1 : Int) - (s.ends : Int)) }
  else if b = NODE_END then
    { s with ends := s.ends + 1, mind := min s.mind ((s.starts : Int) - ((s.ends : Int) + 1)) }
  else if b = ESCAPE then { s with esc := true }
  else s

def markRun (s : MarkScan) (bs : List Nat) : MarkScan :=
  bs.foldl markStep s

def markStart : MarkScan :=
  ⟨false, 0, 0, 0⟩

/-- A byte chunk that, started unescaped, ends unescaped, adds the same
number of unescaped start and end markers, and never lets the running
depth drop below both its incoming minimum and its incoming depth. -/
def Chunk (bs : List Nat) : Prop :=
  ∀ (st en : Nat) (m : Int),
    ∃ k m2, markRun ⟨false, st, en, m⟩ bs = ⟨false, st + k, en + k, m2⟩ ∧
      min m ((st : Int) - (en : Int)) ≤ m2 ∧ m2 ≤ m

/-! ### Application side: color analysis (`PNGToOTBMApp._analyzeColors`) -/

/-- One RGBA pixel (four consecutive bytes of the `ImageData` array). -/
structure RGBA where
  r : Nat
  g : Nat
  b : Nat
  a : Nat
deriving DecidableEq

/-- `_rgbToHex` builds the string `#rrggbb` from the three channel
bytes; on byte values (canvas pixel data is 0..255) that string is in
bijection with the packed 24-bit integer used here. -/
def rgbToHex (r g b : Nat) : Nat :=
  r * 65536 + g * 256 + b

/-- `_hexToRgb`: the three channel bytes of a packed key. -/
def hexToRgb (k : Nat) : Nat × Nat × Nat :=
  (k / 65536 % 256, k / 256 % 256, k % 256)

/-- One palette entry of `this.colorMappings`. -/
structure ColorEntry where
  hex : Nat
  rgb : Nat × Nat × Nat
  tileId : Nat
  count : Nat
deriving DecidableEq

/-- `colorCounts.set(hex, (colorCounts.get(hex) || 0) + 1)` on an
insertion-ordered map: increment in place, or append a new key. -/
def bump : List (Nat × Nat) → Nat → List (Nat × Nat)
  | [], hex => [(hex, 1)]
  | (k, c) :: rest, hex =>
    if k = hex then (k, c + 1) :: rest else (k, c) :: bump rest hex

/-- The scanning loop of `_analyzeColors`: count transparent pixels
(alpha < 128), bump the color counter for opaque pixels, and fail
(`none`) as soon as the counter holds more than 256 distinct keys. -/
def analyzeGo : List RGBA → List (Nat × Nat) → Nat → Option (List (Nat × Nat) × Nat)
  | [], counts, transparent => some (counts, transparent)
  | p :: rest, counts, transparent =>
    if p.a < 128 then analyzeGo rest counts (transparent + 1)
    else
      let counts2 := bump counts (rgbToHex p.r p.g p.b)
      if 256 < counts2.length then none
      else analyzeGo rest counts2 transparent

/-- Insert an entry after every entry with a greater-or-equal count:
one step of a stable sort by count descending. -/
def insertByCountDesc : List (Nat × Nat) → Nat × Nat → List (Nat × Nat)
  | [], e => [e]
  | a :: rest, e =>
    if a.2 < e.2 then e :: a :: rest else a :: insertByCountDesc rest e

/-- `[...colorCounts.entries()].sort((a, b) => b[1] - a[1])`:
JavaScript `Array.prototype.sort` is stable, so with this comparator it
is the stable sort by count descending, realized here by insertion. -/
def sortByCountDesc (l : List (Nat × Nat)) : List (Nat × Nat) :=
  l.foldl insertByCountDesc []

/-- The outcome of `_analyzeColors`: on failure `this.colorMappings` is
cleared and `{success: false}` is returned (the transparent count field
is not published on failure and is modelled as 0). -/
structure AnalyzeResult where
  success : Bool
  colorMappings : List ColorEntry
  transparentPixelCount : Nat
deriving DecidableEq

/-- `_analyzeColors` on the pixel quadruples, with `savedMappings`
standing for the optional restored color-to-tile-id lookup. -/
def analyzeColors (pixels : List RGBA) (savedMappings : Nat → Option Nat) : AnalyzeResult :=
  match analyzeGo pixels [] 0 with
  | none => ⟨false, [], 0⟩
  | some (counts, transparent) =>
    ⟨true,
      (sortByCountDesc counts).map fun kc =>
        ⟨kc.1, hexToRgb kc.1, (savedMappings kc.1).getD 0, kc.2⟩,
      transparent⟩

/-- The maximum width/height and total pixel check of `_validateImage`. -/
def validateImage (width height : Nat) : Bool :=
  if 4500 < width ∨ 4500 < height then false
  else if 13500000 < width * height then false
  else true

/-! ### Application side: tile planning (`PNGToOTBMApp._generateOTBM`) -/

/-- The `colorToTile` map built before the pixel loop: only mappings
with `tileId > 0` are entered. -/
def colorToTile (mappings : List ColorEntry) : List (Nat × Nat) :=
  (mappings.filter fun m => 0 < m.tileId).map fun m => (m.hex, m.tileId)

/-- `Map.get` on an association list with distinct keys. -/
def mapGet (l : List (Nat × Nat)) (k : Nat) : Option Nat :=
  (l.find? fun kv => kv.1 == k).map fun kv => kv.2

/-- The body of the per-pixel loop of `_generateOTBM`: a transparent
pixel (alpha < 128) places `transparentId` iff it is positive, an
opaque pixel places the looked-up tile id iff the lookup hits and the
id is truthy (nonzero). -/
def planPixel (colorMap : List (Nat × Nat)) (transparentId z offX offY : Nat)
    (x y : Nat) (p : RGBA) : List Tile :=
  if p.a < 128 then
    if 0 < transparentId then [⟨x + offX, y + offY, z, transparentId, []⟩] else []
  else
    match mapGet colorMap (rgbToHex p.r p.g p.b) with
    | some tileId => if tileId ≠ 0 then [⟨x + offX, y + offY, z, tileId, []⟩] else []
    | none => []

/-- The full pixel loop of `_generateOTBM` (y outer, x inner, reading
pixel `(y * width + x)`), collecting the tiles passed to `addTile` in
order. -/
def planTiles (pixels : List RGBA) (width height : Nat)
    (colorMap : List (Nat × Nat)) (transparentId z offX offY : Nat) : List Tile :=
  (List.range height).flatMap fun y =>
    (List.range width).flatMap fun x =>
      planPixel colorMap transparentId z offX offY x y (pixels.getD (y * width + x) ⟨0, 0, 0, 0⟩)

/-- The image handed to `_generateOTBM` (`this.image` dimensions plus
the decoded `ImageData` pixel quadruples). -/
structure ImageInput where
  width : Nat
  height : Nat
  pixels : List RGBA

/-- The per-client format configuration; the generated description
string is carried as its byte sequence. -/
structure ClientConfig where
  otbmVersion : Nat
  otb : Nat
  descriptionBytes : List Nat

/-- An entry of the OTB version table (`getOTBVersion` result). -/
structure OTBVersionInfo where
  version : Nat
  id : Nat

/-- The terminal outcomes of `_generateOTBM` before bytes exist. -/
inductive GenError where
  | cancelled
  | coordinateOverflow
  | invalidClient
  | otbNotFound
deriving DecidableEq

/-- `_generateOTBM`: ID-0 warning (the `confirm` dialog answer is the
`confirmProceed` input), input clamping, the coordinate-overflow check,
client/OTB lookups, the `colorToTile` map, the pixel loop and finally
`OTBMWriter.generate`.  An error means the function returned before any
output bytes were produced. -/
def generateOTBM (img : ImageInput) (colorMappings : List ColorEntry)
    (transparentPixelCount : Nat)
    (transparentIdInput zInput offsetXInput offsetYInput : Int)
    (confirmProceed : Bool) (clientConfig : Option ClientConfig)
    (otbLookup : Nat → Option OTBVersionInfo) : Except GenError (List Nat) :=
  let zeroIds := colorMappings.filter fun m => m.tileId = 0
  let transparentId := (max 0 (min 65535 transparentIdInput)).toNat
  if (zeroIds.length ≠ 0 ∨ (0 < transparentPixelCount ∧ transparentId = 0)) ∧
      confirmProceed = false then
    .error .cancelled
  else
    let z := (max 0 (min 15 zInput)).toNat
    let offX := (max 0 offsetXInput).toNat
    let offY := (max 0 offsetYInput).toNat
    if 65535 < offX + img.width ∨ 65535 < offY + img.height then
      .error .coordinateOverflow
    else
      match clientConfig with
      | none => .error .invalidClient
      | some cc =>
        match otbLookup cc.otb with
        | none => .error .otbNotFound
        | some otbVersion =>
          let colorMap := colorToTile colorMappings
          let writer : OTBMWriter :=
            ⟨img.width + offX, img.height + offY, cc.descriptionBytes,
              planTiles img.pixels img.width img.height colorMap transparentId z offX offY,
              cc.otbmVersion, otbVersion.version, otbVersion.id⟩
          .ok (OTBMWriter.generate writer)

/-! ### Specification-side helpers for the analysis and grouping claims -/

/-- The distinct color keys of the opaque pixels (alpha >= 128) in
first-appearance scan order. -/
def seenColorKeys (pixels : List RGBA) : List Nat :=
  pixels.foldl
    (fun ks p =>
      if p.a < 128 then ks
      else if rgbToHex p.r p.g p.b ∈ ks then ks
      else ks ++ [rgbToHex p.r p.g p.b])
    []

/-- How many distinct opaque colors a pixel buffer contains. -/
def distinctColorCount (pixels : List RGBA) : Nat :=
  (seenColorKeys pixels).length

/-- The grouping key of a tile as the spec words it: both coordinates
truncated to the nearest lower multiple of 256, plus the floor. -/
def specTileKey (t : Tile) : Nat × Nat × Nat :=
  (t.x / 256 * 256, t.y / 256 * 256, t.z)

/-- The key under which the source groups a tile. -/
def codeTileKey (t : Tile) : Nat × Nat × Nat :=
  (t.x &&& 0xFF00, t.y &&& 0xFF00, t.z)

/-- An area's key triple. -/
def areaKey (a : Area) : Nat × Nat × Nat :=
  (a.areaX, a.areaY, a.z)

/-- One step of collecting the source grouping keys in first-seen
order. -/
def keyStep (ks : List (Nat × Nat × Nat)) (t : Tile) : List (Nat × Nat × Nat) :=
  if codeTileKey t ∈ ks then ks else ks ++ [codeTileKey t]

/-- The tile keys in first-seen order, as the spec describes the area
ordering. -/
def areaKeysOrder (tiles : List Tile) : List (Nat × Nat × Nat) :=
  tiles.foldl (fun ks t => if specTileKey t ∈ ks then ks else ks ++ [specTileKey t]) []

/-!
## Theorems
-/

theorem unescape_escape_cons (c : Nat) (rest : List Nat) :
    unescape (ESCAPE :: c :: rest) = (unescape rest).map fun l => c :: l := by
  rw [unescape.eq_def]
  simp

theorem unescape_plain_cons (b : Nat) (rest : List Nat)
    (h1 : b ≠ ESCAPE) (h2 : b ≠ NODE_START) (h3 : b ≠ NODE_END) :
    unescape (b :: rest) = (unescape rest).map fun l => b :: l := by
  rw [unescape.eq_def]
  simp [h1, h2, h3]

theorem unescape_writeEscapedBytes_append (bs tail : List Nat) :
    unescape (OTBMWriter.writeEscapedBytes bs ++ tail) =
      (unescape tail).map fun l => bs.map (· % 256) ++ l := by
  induction bs with
  | nil =>
    simp only [OTBMWriter.writeEscapedBytes, List.flatMap_nil, List.nil_append, List.map_nil]
    cases unescape tail <;> simp
  | cons b rest ih =>
    by_cases hb : b % 256 = NODE_START ∨ b % 256 = NODE_END ∨ b % 256 = ESCAPE
    · have hw : OTBMWriter.writeEscapedByte b = [ESCAPE, b % 256] := by
        simp [OTBMWriter.writeEscapedByte, hb]
      simp only [OTBMWriter.writeEscapedBytes, List.flatMap_cons, hw, List.cons_append,
        List.nil_append] at ih ⊢
      rw [unescape_escape_cons, ih]
      cases unescape tail <;> simp
    · push_neg at hb
      obtain ⟨h1, h2, h3⟩ := hb
      have hw : OTBMWriter.writeEscapedByte b = [b % 256] := by
        simp [OTBMWriter.writeEscapedByte, h1, h2, h3]
      simp only [OTBMWriter.writeEscapedBytes, List.flatMap_cons, hw, List.cons_append,
        List.nil_append] at ih ⊢
      rw [unescape_plain_cons _ _ h3 h1 h2, ih]
      cases unescape tail <;> simp

/-- Claim C1: the generated byte sequence starts with the four literal
unescaped magic bytes `0x4F 0x54 0x42 0x4D`, followed by a root node of
type 1 (raw marker `0xFE`, raw type byte `0x01`) whose body begins, in
order, with u32 otbmVersion, u16 mapWidth, u16 mapHeight,
u32 otbFormatMajor, u32 otbFormatMinor — each encoded little-endian with
every constituent byte passed through the escaping primitives. -/
theorem generate_layout_magic_root_header (w : OTBMWriter) :
    OTBMWriter.generate w =
      [0x4F, 0x54, 0x42, 0x4D] ++ [0xFE, 0x01] ++
        (OTBMWriter.writeU32 w.otbmVersion ++ OTBMWriter.writeU16 w.width ++
          OTBMWriter.writeU16 w.height ++ OTBMWriter.writeU32 w.otbMajorVersion ++
          OTBMWriter.writeU32 w.otbMinorVersion) ++
        (OTBMWriter.writeMapData w ++ [0xFF]) := by
  simp [OTBMWriter.generate, OTBMWriter.startNode, OTBMWriter.writeByte,
    OTBMWriter.writeRootHeader, OTBMWriter.endNode, NODE_START, NODE_END, OTBM_ROOTV1]

/-- Claim C2: the escaping rule.  (1) Decoding an escaped payload by
stripping a single `0xFD` prefix from each escaped byte recovers the
original data bytes; (2) a data byte equal to `0xFE`, `0xFF` or `0xFD`
is written with exactly one literal `0xFD` escape byte in front (the
prefix itself is not re-escaped); (3) any other data byte is written
bare; (4) node start markers and the node-type byte, and (5) node end
markers, are written without escaping. -/
theorem escaping_rule_round_trip :
    (∀ bs : List Nat,
      unescape (OTBMWriter.writeEscapedBytes bs) = some (bs.map (· % 256))) ∧
    (∀ v : Nat, (v % 256 = NODE_START ∨ v % 256 = NODE_END ∨ v % 256 = ESCAPE) →
      OTBMWriter.writeEscapedByte v = [ESCAPE, v % 256]) ∧
    (∀ v : Nat, ¬(v % 256 = NODE_START ∨ v % 256 = NODE_END ∨ v % 256 = ESCAPE) →
      OTBMWriter.writeEscapedByte v = [v % 256]) ∧
    (∀ t : Nat, OTBMWriter.startNode t = [NODE_START, t % 256]) ∧
    OTBMWriter.endNode = [NODE_END] := by
  refine ⟨fun bs => ?_, fun v hv => ?_, fun v hv => ?_, fun t => rfl, rfl⟩
  · have h := unescape_writeEscapedBytes_append bs []
    simpa [unescape] using h
  · simp [OTBMWriter.writeEscapedByte, hv]
  · simp [OTBMWriter.writeEscapedByte, hv]

/-- Witness for C2 at a concrete payload containing all three bytes that
need escaping. -/
theorem escaping_rule_round_trip_witness :
    unescape (OTBMWriter.writeEscapedBytes [79, 253, 254, 255]) = some [79, 253, 254, 255] := by
  have h := escaping_rule_round_trip.1 [79, 253, 254, 255]
  simpa using h

/-! ### Marker balance (claim C3) -/

theorem markRun_nil (s : MarkScan) : markRun s [] = s :=
  rfl

theorem markRun_cons (s : MarkScan) (b : Nat) (bs : List Nat) :
    markRun s (b :: bs) = markRun (markStep s b) bs :=
  rfl

theorem markRun_append (s : MarkScan) (a b : List Nat) :
    markRun s (a ++ b) = markRun (markRun s a) b := by
  unfold markRun
  rw [List.foldl_append]

theorem chunk_nil : Chunk [] := by
  intro st en m
  exact ⟨0, m, by simp [markRun_nil], min_le_left _ _, le_refl _⟩

theorem chunk_append {a b : List Nat} (ha : Chunk a) (hb : Chunk b) : Chunk (a ++ b) := by
  intro st en m
  obtain ⟨k1, m1, h1, lo1, hi1⟩ := ha st en m
  obtain ⟨k2, m2, h2, lo2, hi2⟩ := hb (st + k1) (en + k1) m1
  refine ⟨k1 + k2, m2, ?_, ?_, ?_⟩
  · rw [markRun_append, h1, h2, Nat.add_assoc, Nat.add_assoc]
  · have hd : ((st + k1 : Nat) : Int) - ((en + k1 : Nat) : Int) =
        (st : Int) - en := by push_cast; ring
    rw [hd] at lo2
    have hmm : min m ((st : Int) - en) ≤ min m1 ((st : Int) - en) :=
      le_min lo1 (min_le_right _ _)
    exact le_trans hmm lo2
  · exact le_trans hi2 hi1

theorem chunk_single_raw (b : Nat) (h1 : b ≠ NODE_START) (h2 : b ≠ NODE_END)
    (h3 : b ≠ ESCAPE) : Chunk [b] := by
  intro st en m
  refine ⟨0, m, ?_, min_le_left _ _, le_refl _⟩
  simp [markRun, markStep, h1, h2, h3]

theorem chunk_writeEscapedByte (v : Nat) : Chunk (OTBMWriter.writeEscapedByte v) := by
  by_cases hv : v % 256 = NODE_START ∨ v % 256 = NODE_END ∨ v % 256 = ESCAPE
  · have hw : OTBMWriter.writeEscapedByte v = [ESCAPE, v % 256] := by
      simp [OTBMWriter.writeEscapedByte, hv]
    rw [hw]
    intro st en m
    refine ⟨0, m, ?_, min_le_left _ _, le_refl _⟩
    simp [markRun, markStep, ESCAPE, NODE_START, NODE_END]
  · have hw : OTBMWriter.writeEscapedByte v = [v % 256] := by
      simp [OTBMWriter.writeEscapedByte, hv]
    rw [hw]
    push_neg at hv
    exact chunk_single_raw _ hv.1 hv.2.1 hv.2.2

theorem chunk_flatMap {α : Type} (f : α → List Nat) (l : List α)
    (h : ∀ x ∈ l, Chunk (f x)) : Chunk (l.flatMap f) := by
  induction l with
  | nil => simpa [List.flatMap_nil] using chunk_nil
  | cons a l ih =>
    rw [List.flatMap_cons]
    exact chunk_append (h a (List.mem_cons_self a l)) (ih fun x hx => h x (List.mem_cons_of_mem a hx))

theorem chunk_writeEscapedBytes (bs : List Nat) : Chunk (OTBMWriter.writeEscapedBytes bs) :=
  chunk_flatMap _ _ fun x _ => chunk_writeEscapedByte x

theorem chunk_writeU16 (v : Nat) : Chunk (OTBMWriter.writeU16 v) :=
  chunk_append (chunk_writeEscapedByte _) (chunk_writeEscapedByte _)

theorem chunk_writeU32 (v : Nat) : Chunk (OTBMWriter.writeU32 v) :=
  chunk_append (chunk_append (chunk_append (chunk_writeEscapedByte _)
    (chunk_writeEscapedByte _)) (chunk_writeEscapedByte _)) (chunk_writeEscapedByte _)

theorem chunk_writeString (s : List Nat) : Chunk (OTBMWriter.writeString s) :=
  chunk_append (chunk_writeU16 _) (chunk_writeEscapedBytes _)

theorem chunk_node (t : Nat) (body : List Nat) (h1 : t % 256 ≠ NODE_START)
    (h2 : t % 256 ≠ NODE_END) (h3 : t % 256 ≠ ESCAPE) (hb : Chunk body) :
    Chunk (OTBMWriter.startNode t ++ body ++ OTBMWriter.endNode) := by
  intro st en m
  have hstart : markRun ⟨false, st, en, m⟩ (OTBMWriter.startNode t) =
      ⟨false, st + 1, en, min m ((st : Int) + 1 - (en : Int))⟩ := by
    simp [OTBMWriter.startNode, OTBMWriter.writeByte, markRun, markStep, h1, h2, h3]
  obtain ⟨k, m1, hrun1, lo1, hi1⟩ := hb (st + 1) en (min m ((st : Int) + 1 - (en : Int)))
  have hcast1 : ((st + 1 : Nat) : Int) - ((en : Nat) : Int) = (st : Int) + 1 - en := by
    push_cast; ring
  rw [hcast1, min_assoc, min_self] at lo1
  have hend : markRun ⟨false, st + 1 + k, en + k, m1⟩ OTBMWriter.endNode =
      ⟨false, st + 1 + k, en + k + 1,
        min m1 (((st + 1 + k : Nat) : Int) - (((en + k : Nat) : Int) + 1))⟩ := by
    simp [OTBMWriter.endNode, markRun, markStep, NODE_START, NODE_END, ESCAPE]
  have hmindeq : (((st + 1 + k : Nat) : Int) - (((en + k : Nat) : Int) + 1)) =
      (st : Int) - en := by
    push_cast; ring
  refine ⟨k + 1, min m1 ((st : Int) - (en : Int)), ?_, ?_, ?_⟩
  · rw [markRun_append, markRun_append, hstart, hrun1, hend, hmindeq,
      show st + 1 + k = st + (k + 1) from by omega,
      show en + k + 1 = en + (k + 1) from by omega]
  · have hmd : min m ((st : Int) - en) ≤ m1 := by
      refine le_trans ?_ lo1
      exact min_le_min (le_refl m) (by omega)
    exact le_min hmd (min_le_right _ _)
  · exact le_trans (min_le_left _ _) (le_trans hi1 (min_le_left _ _))

theorem chunk_ite (c : Prop) [Decidable c] (x : List Nat) (hx : Chunk x) :
    Chunk (if c then x else []) := by
  split
  · exact hx
  · exact chunk_nil

theorem chunk_writeTile (t : Tile) (baseX baseY : Nat) :
    Chunk (OTBMWriter.writeTile t baseX baseY) := by
  have hform : OTBMWriter.writeTile t baseX baseY =
      OTBMWriter.startNode OTBM_TILE ++
        (OTBMWriter.writeEscapedByte (t.x - baseX) ++ OTBMWriter.writeEscapedByte (t.y - baseY) ++
          OTBMWriter.writeByte OTBM_ATTR_ITEM ++ OTBMWriter.writeU16 t.groundId ++
          (t.items.flatMap fun itemId =>
            OTBMWriter.startNode OTBM_ITEM ++ OTBMWriter.writeU16 itemId ++ OTBMWriter.endNode)) ++
        OTBMWriter.endNode := by
    simp [OTBMWriter.writeTile, List.append_assoc]
  rw [hform]
  refine chunk_node _ _ (by decide) (by decide) (by decide) ?_
  refine chunk_append (chunk_append (chunk_append (chunk_append (chunk_writeEscapedByte _)
    (chunk_writeEscapedByte _)) ?_) (chunk_writeU16 _)) ?_
  · exact chunk_single_raw _ (by decide) (by decide) (by decide)
  · exact chunk_flatMap _ _ fun itemId _ =>
      chunk_node _ _ (by decide) (by decide) (by decide) (chunk_writeU16 itemId)

theorem chunk_writeTileArea (a : Area) : Chunk (OTBMWriter.writeTileArea a) := by
  have hform : OTBMWriter.writeTileArea a =
      OTBMWriter.startNode OTBM_TILE_AREA ++
        (OTBMWriter.writeU16 a.areaX ++ OTBMWriter.writeU16 a.areaY ++
          OTBMWriter.writeEscapedByte a.z ++
          (a.tiles.flatMap fun t => OTBMWriter.writeTile t a.areaX a.areaY)) ++
        OTBMWriter.endNode := by
    simp [OTBMWriter.writeTileArea, List.append_assoc]
  rw [hform]
  refine chunk_node _ _ (by decide) (by decide) (by decide) ?_
  exact chunk_append (chunk_append (chunk_append (chunk_writeU16 _) (chunk_writeU16 _))
    (chunk_writeEscapedByte _)) (chunk_flatMap _ _ fun t _ => chunk_writeTile t _ _)

theorem chunk_writeMapData (w : OTBMWriter) : Chunk (OTBMWriter.writeMapData w) := by
  have hform : OTBMWriter.writeMapData w =
      OTBMWriter.startNode OTBM_MAP_DATA ++
        (OTBMWriter.writeByte OTBM_ATTR_DESCRIPTION ++ OTBMWriter.writeString w.description ++
          ((OTBMWriter.groupAreas w.tiles).flatMap OTBMWriter.writeTileArea) ++
          (OTBMWriter.startNode OTBM_TOWNS ++ [] ++ OTBMWriter.endNode) ++
          (if 2 ≤ w.otbmVersion then
            OTBMWriter.startNode OTBM_WAYPOINTS ++ [] ++ OTBMWriter.endNode
          else [])) ++
        OTBMWriter.endNode := by
    simp [OTBMWriter.writeMapData, List.append_assoc]
  rw [hform]
  refine chunk_node _ _ (by decide) (by decide) (by decide) ?_
  refine chunk_append (chunk_append (chunk_append (chunk_append ?_ (chunk_writeString _))
    (chunk_flatMap _ _ fun a _ => chunk_writeTileArea a)) ?_) ?_
  · exact chunk_single_raw _ (by decide) (by decide) (by decide)
  · exact chunk_node _ _ (by decide) (by decide) (by decide) chunk_nil
  · exact chunk_ite _ _ (chunk_node _ _ (by decide) (by decide) (by decide) chunk_nil)

theorem chunk_writeRootHeader (w : OTBMWriter) : Chunk (OTBMWriter.writeRootHeader w) :=
  chunk_append (chunk_append (chunk_append (chunk_append (chunk_writeU32 _)
    (chunk_writeU16 _)) (chunk_writeU16 _)) (chunk_writeU32 _)) (chunk_writeU32 _)

theorem chunk_generate (w : OTBMWriter) : Chunk (OTBMWriter.generate w) := by
  have hform : OTBMWriter.generate w =
      ([0x4F] ++ [0x54] ++ [0x42] ++ [0x4D]) ++
        (OTBMWriter.startNode OTBM_ROOTV1 ++
          (OTBMWriter.writeRootHeader w ++ OTBMWriter.writeMapData w) ++
          OTBMWriter.endNode) := by
    simp [OTBMWriter.generate, List.append_assoc]
  rw [hform]
  refine chunk_append ?_ (chunk_node _ _ (by decide) (by decide) (by decide)
    (chunk_append (chunk_writeRootHeader w) (chunk_writeMapData w)))
  exact chunk_append (chunk_append (chunk_append
    (chunk_single_raw _ (by decide) (by decide) (by decide))
    (chunk_single_raw _ (by decide) (by decide) (by decide)))
    (chunk_single_raw _ (by decide) (by decide) (by decide)))
    (chunk_single_raw _ (by decide) (by decide) (by decide))

theorem markStep_mind_le (s : MarkScan) (b : Nat) : (markStep s b).mind ≤ s.mind := by
  unfold markStep
  split_ifs <;> simp [min_le_left]

theorem markRun_mind_le (s : MarkScan) (bs : List Nat) : (markRun s bs).mind ≤ s.mind := by
  induction bs generalizing s with
  | nil => simp [markRun_nil]
  | cons b bs ih => exact le_trans (ih (markStep s b)) (markStep_mind_le s b)

theorem markStep_mind_le_depth (s : MarkScan) (b : Nat)
    (h : s.mind ≤ (s.starts : Int) - s.ends) :
    (markStep s b).mind ≤ ((markStep s b).starts : Int) - (markStep s b).ends := by
  unfold markStep
  split_ifs
  · exact h
  · show min s.mind ((s.starts : Int) + 1 - s.ends) ≤ ((s.starts + 1 : Nat) : Int) - s.ends
    push_cast
    exact min_le_right _ _
  · show min s.mind ((s.starts : Int) - (s.ends + 1)) ≤ (s.starts : Int) - ((s.ends + 1 : Nat) : Int)
    push_cast
    exact min_le_right _ _
  · exact h
  · exact h

theorem markRun_mind_le_depth (bs : List Nat) : ∀ s : MarkScan,
    s.mind ≤ (s.starts : Int) - s.ends →
    (markRun s bs).mind ≤ ((markRun s bs).starts : Int) - (markRun s bs).ends := by
  induction bs with
  | nil => intro s h; simpa [markRun_nil] using h
  | cons b bs ih => intro s h; exact ih (markStep s b) (markStep_mind_le_depth s b h)

/-- Claim C3: in every generated byte stream the number of unescaped
`0xFE` start markers equals the number of unescaped `0xFF` end markers,
and in every prefix of the stream the end markers never outnumber the
start markers (the node tree is well-nested).  `markRun` counts the
markers, treating a byte directly after an unescaped `0xFD` as payload. -/
theorem generate_markers_balanced (w : OTBMWriter) :
    (markRun markStart (OTBMWriter.generate w)).starts =
      (markRun markStart (OTBMWriter.generate w)).ends ∧
    ∀ p q : List Nat, OTBMWriter.generate w = p ++ q →
      (markRun markStart p).ends ≤ (markRun markStart p).starts := by
  obtain ⟨k, m2, hrun, lo, hi⟩ := chunk_generate w 0 0 0
  have hms : markStart = (⟨false, 0, 0, 0⟩ : MarkScan) := rfl
  have hlo : (0 : Int) ≤ m2 := by simpa using lo
  have hhi : m2 ≤ 0 := by simpa using hi
  have hm2 : m2 = 0 := le_antisymm hhi hlo
  constructor
  · rw [hms, hrun]
  · intro p q hpq
    have hJ : (markRun markStart p).mind ≤
        ((markRun markStart p).starts : Int) - (markRun markStart p).ends :=
      markRun_mind_le_depth p markStart (by simp [markStart])
    have hmono : (markRun (markRun markStart p) q).mind ≤ (markRun markStart p).mind :=
      markRun_mind_le _ q
    have hfull : markRun (markRun markStart p) q = markRun markStart (OTBMWriter.generate w) := by
      rw [hpq, markRun_append]
    rw [hfull, hms, hrun] at hmono
    simp only [hm2] at hmono
    have h0 : (0 : Int) ≤ ((markRun markStart p).starts : Int) - (markRun markStart p).ends :=
      le_trans hmono hJ
    omega

/-- Witness for C3: a concrete writer and a concrete prefix split of its
output. -/
theorem generate_markers_balanced_witness :
    (markRun markStart [79]).ends ≤ (markRun markStart [79]).starts :=
  (generate_markers_balanced ⟨0, 0, [], [], 0, 0, 0⟩).2 [79]
    ((OTBMWriter.generate ⟨0, 0, [], [], 0, 0, 0⟩).drop 1) (by decide)

/-! ### Color analysis (claims C5, C6, C7) -/

theorem bump_map_fst (counts : List (Nat × Nat)) (hex : Nat) :
    (bump counts hex).map Prod.fst =
      if hex ∈ counts.map Prod.fst then counts.map Prod.fst
      else counts.map Prod.fst ++ [hex] := by
  induction counts with
  | nil => simp [bump]
  | cons kc rest ih =>
    obtain ⟨k, c⟩ := kc
    by_cases hk : k = hex
    · subst hk
      simp [bump]
    · simp only [bump, if_neg hk, List.map_cons]
      rw [ih]
      by_cases hmem : hex ∈ rest.map Prod.fst
      · simp [List.mem_cons, hmem]
      · simp [List.mem_cons, hmem, Ne.symm hk]

theorem bump_map_snd_sum (counts : List (Nat × Nat)) (hex : Nat) :
    ((bump counts hex).map Prod.snd).sum = ((counts.map Prod.snd).sum) + 1 := by
  induction counts with
  | nil => simp [bump]
  | cons kc rest ih =>
    obtain ⟨k, c⟩ := kc
    by_cases hk : k = hex <;> simp [bump, hk, ih] <;> omega

theorem analyzeGo_append (l1 l2 : List RGBA) (counts : List (Nat × Nat)) (t : Nat) :
    analyzeGo (l1 ++ l2) counts t =
      match analyzeGo l1 counts t with
      | none => none
      | some (c, tr) => analyzeGo l2 c tr := by
  induction l1 generalizing counts t with
  | nil => simp [analyzeGo]
  | cons p rest ih =>
    simp only [List.cons_append, analyzeGo]
    by_cases hp : p.a < 128
    · simp only [if_pos hp]
      exact ih counts (t + 1)
    · simp only [if_neg hp]
      by_cases hlen : 256 < (bump counts (rgbToHex p.r p.g p.b)).length
      · simp [hlen]
      · simp only [if_neg hlen]
        exact ih _ t

theorem analyzeGo_some_keys (pixels : List RGBA) :
    ∀ (counts : List (Nat × Nat)) (t : Nat) (c' : List (Nat × Nat)) (t' : Nat),
      analyzeGo pixels counts t = some (c', t') →
      c'.map Prod.fst =
        pixels.foldl
          (fun ks p =>
            if p.a < 128 then ks
            else if rgbToHex p.r p.g p.b ∈ ks then ks
            else ks ++ [rgbToHex p.r p.g p.b])
          (counts.map Prod.fst) := by
  induction pixels with
  | nil =>
    intro counts t c' t' h
    simp only [analyzeGo, Option.some.injEq, Prod.mk.injEq] at h
    rw [List.foldl_nil, ← h.1]
  | cons p rest ih =>
    intro counts t c' t' h
    rw [List.foldl_cons]
    by_cases hp : p.a < 128
    · simp only [analyzeGo, if_pos hp] at h
      rw [if_pos hp]
      exact ih counts (t + 1) c' t' h
    · simp only [analyzeGo, if_neg hp] at h
      rw [if_neg hp]
      by_cases hlen : 256 < (bump counts (rgbToHex p.r p.g p.b)).length
      · rw [if_pos hlen] at h
        exact absurd h (by simp)
      · rw [if_neg hlen] at h
        rw [ih _ _ _ _ h, bump_map_fst]

theorem analyzeGo_some_length (pixels : List RGBA) :
    ∀ (counts : List (Nat × Nat)) (t : Nat) (c' : List (Nat × Nat)) (t' : Nat),
      counts.length ≤ 256 → analyzeGo pixels counts t = some (c', t') →
      c'.length ≤ 256 := by
  induction pixels with
  | nil =>
    intro counts t c' t' hle h
    simp only [analyzeGo, Option.some.injEq, Prod.mk.injEq] at h
    rw [← h.1]
    exact hle
  | cons p rest ih =>
    intro counts t c' t' hle h
    by_cases hp : p.a < 128
    · simp only [analyzeGo, if_pos hp] at h
      exact ih _ _ _ _ hle h
    · simp only [analyzeGo, if_neg hp] at h
      by_cases hlen : 256 < (bump counts (rgbToHex p.r p.g p.b)).length
      · rw [if_pos hlen] at h
        exact absurd h (by simp)
      · rw [if_neg hlen] at h
        exact ih _ _ _ _ (by omega) h

theorem analyzeGo_some_sum (pixels : List RGBA) :
    ∀ (counts : List (Nat × Nat)) (t : Nat) (c' : List (Nat × Nat)) (t' : Nat),
      analyzeGo pixels counts t = some (c', t') →
      ((c'.map Prod.snd).sum) + t' = ((counts.map Prod.snd).sum) + t + pixels.length := by
  induction pixels with
  | nil =>
    intro counts t c' t' h
    simp only [analyzeGo, Option.some.injEq, Prod.mk.injEq] at h
    rw [← h.1, ← h.2]
    simp
  | cons p rest ih =>
    intro counts t c' t' h
    by_cases hp : p.a < 128
    · simp only [analyzeGo, if_pos hp] at h
      have := ih _ _ _ _ h
      simp only [List.length_cons]
      omega
    · simp only [analyzeGo, if_neg hp] at h
      by_cases hlen : 256 < (bump counts (rgbToHex p.r p.g p.b)).length
      · rw [if_pos hlen] at h
        exact absurd h (by simp)
      · rw [if_neg hlen] at h
        have h1 := ih _ _ _ _ h
        have h2 := bump_map_snd_sum counts (rgbToHex p.r p.g p.b)
        simp only [List.length_cons]
        omega

theorem insertByCountDesc_perm (l : List (Nat × Nat)) (e : Nat × Nat) :
    List.Perm (insertByCountDesc l e) (e :: l) := by
  induction l with
  | nil => simp [insertByCountDesc]
  | cons a rest ih =>
    simp only [insertByCountDesc]
    by_cases h : a.2 < e.2
    · rw [if_pos h]
    · rw [if_neg h]
      exact List.Perm.trans (List.Perm.cons a ih) (List.Perm.swap e a rest)

theorem sortByCountDesc_perm (l : List (Nat × Nat)) : List.Perm (sortByCountDesc l) l := by
  have main : ∀ acc, List.Perm (l.foldl insertByCountDesc acc) (l ++ acc) := by
    induction l with
    | nil => intro acc; simp
    | cons x rest ih =>
      intro acc
      rw [List.foldl_cons]
      refine List.Perm.trans (ih (insertByCountDesc acc x)) ?_
      refine List.Perm.trans (List.Perm.append_left rest (insertByCountDesc_perm acc x)) ?_
      exact List.perm_middle
  simpa using main []

theorem insertByCountDesc_pairwise (l : List (Nat × Nat)) (e : Nat × Nat)
    (h : List.Pairwise (fun a b : Nat × Nat => b.2 ≤ a.2) l) :
    List.Pairwise (fun a b : Nat × Nat => b.2 ≤ a.2) (insertByCountDesc l e) := by
  induction l with
  | nil => simp [insertByCountDesc]
  | cons a rest ih =>
    rw [List.pairwise_cons] at h
    obtain ⟨ha, hrest⟩ := h
    simp only [insertByCountDesc]
    by_cases hc : a.2 < e.2
    · rw [if_pos hc, List.pairwise_cons]
      constructor
      · intro b hb
        rcases List.mem_cons.mp hb with h1 | h2
        · rw [h1]; exact le_of_lt hc
        · exact le_trans (ha b h2) (le_of_lt hc)
      · exact List.pairwise_cons.mpr ⟨ha, hrest⟩
    · rw [if_neg hc, List.pairwise_cons]
      constructor
      · intro b hb
        rcases List.mem_cons.mp ((insertByCountDesc_perm rest e).mem_iff.mp hb) with h1 | h2
        · rw [h1]; omega
        · exact ha b h2
      · exact ih hrest

theorem sortByCountDesc_pairwise (l : List (Nat × Nat)) :
    List.Pairwise (fun a b : Nat × Nat => b.2 ≤ a.2) (sortByCountDesc l) := by
  have main : ∀ acc, List.Pairwise (fun a b : Nat × Nat => b.2 ≤ a.2) acc →
      List.Pairwise (fun a b : Nat × Nat => b.2 ≤ a.2) (l.foldl insertByCountDesc acc) := by
    induction l with
    | nil => intro acc hacc; exact hacc
    | cons x rest ih =>
      intro acc hacc
      rw [List.foldl_cons]
      exact ih _ (insertByCountDesc_pairwise acc x hacc)
  exact main [] List.Pairwise.nil

theorem filter_count_eq_nil (a : Nat × Nat) (rest : List (Nat × Nat)) (c : Nat)
    (hlt : a.2 < c) (hp : List.Pairwise (fun x y : Nat × Nat => y.2 ≤ x.2) (a :: rest)) :
    (a :: rest).filter (fun kv => kv.2 == c) = [] := by
  rw [List.filter_eq_nil_iff]
  intro b hb
  rcases List.mem_cons.mp hb with h1 | h2
  · simp only [h1, beq_iff_eq]
    omega
  · rw [List.pairwise_cons] at hp
    have := hp.1 b h2
    simp only [beq_iff_eq]
    omega

theorem insertByCountDesc_filter (l : List (Nat × Nat)) (e : Nat × Nat) (c : Nat)
    (hsort : List.Pairwise (fun a b : Nat × Nat => b.2 ≤ a.2) l) :
    (insertByCountDesc l e).filter (fun kv => kv.2 == c) =
      l.filter (fun kv => kv.2 == c) ++ if e.2 = c then [e] else [] := by
  induction l with
  | nil =>
    by_cases he : e.2 = c <;> simp [insertByCountDesc, List.filter_cons, he]
  | cons a rest ih =>
    rw [List.pairwise_cons] at hsort
    obtain ⟨ha, hrest⟩ := hsort
    simp only [insertByCountDesc]
    by_cases hc : a.2 < e.2
    · rw [if_pos hc]
      by_cases he : e.2 = c
      · have hnil : (a :: rest).filter (fun kv => kv.2 == c) = [] :=
          filter_count_eq_nil a rest c (by omega) (List.pairwise_cons.mpr ⟨ha, hrest⟩)
        simp [List.filter_cons, he, hnil]
      · simp [List.filter_cons, he]
    · rw [if_neg hc]
      by_cases hac : a.2 = c
      · simp [List.filter_cons, hac, ih hrest]
      · simp [List.filter_cons, hac, ih hrest]

theorem sortByCountDesc_filter (l : List (Nat × Nat)) (c : Nat) :
    (sortByCountDesc l).filter (fun kv => kv.2 == c) = l.filter (fun kv => kv.2 == c) := by
  have main : ∀ acc, List.Pairwise (fun a b : Nat × Nat => b.2 ≤ a.2) acc →
      (l.foldl insertByCountDesc acc).filter (fun kv => kv.2 == c) =
        acc.filter (fun kv => kv.2 == c) ++ l.filter (fun kv => kv.2 == c) := by
    induction l with
    | nil => intro acc _; simp
    | cons x rest ih =>
      intro acc hacc
      rw [List.foldl_cons, ih _ (insertByCountDesc_pairwise acc x hacc),
        insertByCountDesc_filter acc x c hacc]
      by_cases hx : x.2 = c
      · simp [List.filter_cons, hx, List.append_assoc]
      · simp [List.filter_cons, hx]
  simpa using main [] List.Pairwise.nil

theorem map_entry_filter (counts : List (Nat × Nat)) (saved : Nat → Option Nat) (c : Nat) :
    (((counts).map fun kc =>
        (⟨kc.1, hexToRgb kc.1, (saved kc.1).getD 0, kc.2⟩ : ColorEntry)).filter
      (fun e => e.count == c)).map ColorEntry.hex =
    (counts.filter fun kv => kv.2 == c).map Prod.fst := by
  induction counts with
  | nil => simp
  | cons kc rest ih =>
    simp only [List.map_cons, List.filter_cons]
    by_cases hc : kc.2 = c
    · simp [hc, ih]
    · simp [hc, ih]

/-- Claim C5: if the pixel buffer holds more than 256 distinct opaque
colors, analysis fails: `success` is false and the palette mapping is
left empty; moreover the outcome is already determined by the prefix
that exhibits the overflow — appending further pixels does not change
the (failed) result. -/
theorem analyze_too_many_colors (pixels : List RGBA) (saved : Nat → Option Nat)
    (h : 256 < distinctColorCount pixels) :
    (analyzeColors pixels saved).success = false ∧
    (analyzeColors pixels saved).colorMappings = [] ∧
    ∀ rest : List RGBA, analyzeColors (pixels ++ rest) saved = analyzeColors pixels saved := by
  have hnone : analyzeGo pixels [] 0 = none := by
    cases heq : analyzeGo pixels [] 0 with
    | none => rfl
    | some ct =>
      obtain ⟨c, tr⟩ := ct
      have hkeys := analyzeGo_some_keys pixels [] 0 c tr heq
      simp only [List.map_nil] at hkeys
      have hlen := analyzeGo_some_length pixels [] 0 c tr (by simp) heq
      have hdc : distinctColorCount pixels = c.length := by
        simp only [distinctColorCount, seenColorKeys, ← hkeys, List.length_map]
      omega
  refine ⟨by simp [analyzeColors, hnone], by simp [analyzeColors, hnone], fun rest => ?_⟩
  have happ : analyzeGo (pixels ++ rest) [] 0 = none := by
    rw [analyzeGo_append, hnone]
  simp [analyzeColors, happ, hnone]

set_option maxRecDepth 100000 in
/-- Witness for C5: a concrete buffer with 257 distinct opaque colors. -/
theorem analyze_too_many_colors_witness :
    (analyzeColors ((List.range 257).map fun i => ⟨i / 256, i % 256, 0, 255⟩)
      fun _ => none).success = false :=
  (analyze_too_many_colors _ _ (by decide)).1

/-- Claim C6: for a pixel buffer within the size limits whose analysis
succeeds (at most 256 distinct opaque colors; a pixel is opaque iff its
alpha is at least 128), the per-entry pixel counts of the produced
palette plus the transparent-pixel count add up to width times height. -/
theorem analyze_count_conservation (img : ImageInput) (saved : Nat → Option Nat)
    (hv : validateImage img.width img.height = true)
    (hlen : img.pixels.length = img.width * img.height)
    (hs : (analyzeColors img.pixels saved).success = true) :
    (((analyzeColors img.pixels saved).colorMappings.map fun e => e.count).sum) +
      (analyzeColors img.pixels saved).transparentPixelCount =
      img.width * img.height := by
  cases heq : analyzeGo img.pixels [] 0 with
  | none => simp [analyzeColors, heq] at hs
  | some ct =>
    obtain ⟨counts, tr⟩ := ct
    have hsum := analyzeGo_some_sum img.pixels [] 0 counts tr heq
    simp only [List.map_nil, List.sum_nil, Nat.zero_add] at hsum
    have hres : analyzeColors img.pixels saved =
        ⟨true,
          (sortByCountDesc counts).map fun kc =>
            ⟨kc.1, hexToRgb kc.1, (saved kc.1).getD 0, kc.2⟩,
          tr⟩ := by
      simp [analyzeColors, heq]
    rw [hres]
    have hmm : (((sortByCountDesc counts).map fun kc =>
        (⟨kc.1, hexToRgb kc.1, (saved kc.1).getD 0, kc.2⟩ : ColorEntry)).map
          fun e => e.count) = (sortByCountDesc counts).map Prod.snd := by
      rw [List.map_map]
      rfl
    show (((sortByCountDesc counts).map fun kc =>
        (⟨kc.1, hexToRgb kc.1, (saved kc.1).getD 0, kc.2⟩ : ColorEntry)).map
          fun e => e.count).sum + tr = img.width * img.height
    rw [hmm, List.Perm.sum_eq ((sortByCountDesc_perm counts).map Prod.snd)]
    omega

/-- Witness for C6: a 1x2 image with one opaque and one transparent
pixel. -/
theorem analyze_count_conservation_witness :
    (((analyzeColors [⟨9, 9, 9, 255⟩, ⟨0, 0, 0, 0⟩] fun _ => none).colorMappings.map
      fun e => e.count).sum) +
      (analyzeColors [⟨9, 9, 9, 255⟩, ⟨0, 0, 0, 0⟩] fun _ => none).transparentPixelCount = 2 :=
  analyze_count_conservation ⟨1, 2, [⟨9, 9, 9, 255⟩, ⟨0, 0, 0, 0⟩]⟩ (fun _ => none)
    (by decide) (by decide) (by decide)

/-- Claim C7: the palette entries exposed after a successful analysis
are ordered by pixel count descending; within one count value the
entries keep their first-appearance scan order (their hex keys form a
sublist of the first-appearance key sequence, i.e. the sort is stable);
and re-running the analysis on the same buffer yields the identical
result (the embedding is a pure function of the buffer, mirroring the
deterministic scan plus stable `Array.prototype.sort`). -/
theorem analyze_order_sorted_stable (pixels : List RGBA) (saved : Nat → Option Nat)
    (hs : (analyzeColors pixels saved).success = true) :
    List.Pairwise (fun a b : ColorEntry => b.count ≤ a.count)
      (analyzeColors pixels saved).colorMappings ∧
    (∀ c : Nat,
      List.Sublist
        (((analyzeColors pixels saved).colorMappings.filter fun e => e.count == c).map
          ColorEntry.hex)
        (seenColorKeys pixels)) ∧
    analyzeColors pixels saved = analyzeColors pixels saved := by
  cases heq : analyzeGo pixels [] 0 with
  | none => simp [analyzeColors, heq] at hs
  | some ct =>
    obtain ⟨counts, tr⟩ := ct
    have hres : (analyzeColors pixels saved).colorMappings =
        (sortByCountDesc counts).map fun kc =>
          (⟨kc.1, hexToRgb kc.1, (saved kc.1).getD 0, kc.2⟩ : ColorEntry) := by
      simp [analyzeColors, heq]
    have hkeys := analyzeGo_some_keys pixels [] 0 counts tr heq
    simp only [List.map_nil] at hkeys
    have hseen : counts.map Prod.fst = seenColorKeys pixels := by
      rw [hkeys]
      rfl
    refine ⟨?_, ?_, rfl⟩
    · rw [hres]
      exact List.Pairwise.map _ (fun a b h => h) (sortByCountDesc_pairwise counts)
    · intro c
      rw [hres, map_entry_filter, sortByCountDesc_filter, ← hseen]
      exact (List.filter_sublist counts).map Prod.fst

/-- Witness for C7 on a concrete three-pixel buffer with a tie-free
count profile. -/
theorem analyze_order_sorted_stable_witness :
    List.Pairwise (fun a b : ColorEntry => b.count ≤ a.count)
      (analyzeColors [⟨1, 2, 3, 255⟩, ⟨4, 5, 6, 255⟩, ⟨1, 2, 3, 255⟩]
        fun _ => none).colorMappings :=
  (analyze_order_sorted_stable _ _ (by decide)).1

/-! ### Area grouping (claim C8) -/

theorem land_ff00_eq (x : Nat) (hx : x < 65536) : x &&& 65280 = x / 256 * 256 := by
  apply Nat.eq_of_testBit_eq
  intro j
  rw [Nat.testBit_and]
  have h65280 : (65280 : Nat) = 2 ^ 8 * 255 := by norm_num
  have h255 : (255 : Nat) = 2 ^ 8 - 1 := by norm_num
  rw [h65280, Nat.testBit_mul_pow_two]
  conv_lhs => rw [h255, Nat.testBit_two_pow_sub_one]
  have hdiv : x / 256 * 256 = 2 ^ 8 * (x / 2 ^ 8) := by
    norm_num
    ring
  rw [hdiv, Nat.testBit_mul_pow_two]
  have hshift : (x / 2 ^ 8).testBit (j - 8) = x.testBit (8 + (j - 8)) := by
    rw [← Nat.shiftRight_eq_div_pow, Nat.testBit_shiftRight]
  by_cases hj : 8 ≤ j
  · rw [hshift, show 8 + (j - 8) = j from by omega]
    by_cases hj2 : j - 8 < 8
    · simp [hj, hj2]
    · have hx2 : x < 2 ^ j := by
        calc x < 65536 := hx
        _ = 2 ^ 16 := by norm_num
        _ ≤ 2 ^ j := Nat.pow_le_pow_right (by norm_num) (by omega)
      rw [Nat.testBit_lt_two_pow hx2]
      simp [hj, hj2]
  · simp [hj]

theorem codeTileKey_eq_specTileKey (t : Tile) (hx : t.x < 65536) (hy : t.y < 65536) :
    codeTileKey t = specTileKey t := by
  simp only [codeTileKey, specTileKey]
  rw [land_ff00_eq t.x hx, land_ff00_eq t.y hy]

theorem keyStep_sub (ks : List (Nat × Nat × Nat)) (t : Tile) : ks ⊆ keyStep ks t := by
  unfold keyStep
  split
  · exact fun x hx => hx
  · exact fun x hx => List.mem_append_left _ hx

theorem mem_keyStep_self (ks : List (Nat × Nat × Nat)) (t : Tile) :
    codeTileKey t ∈ keyStep ks t := by
  unfold keyStep
  split
  · assumption
  · exact List.mem_append_right _ (List.mem_singleton.mpr rfl)

theorem foldl_keyStep_sub (tiles : List Tile) :
    ∀ ks : List (Nat × Nat × Nat), ks ⊆ tiles.foldl keyStep ks := by
  induction tiles with
  | nil => intro ks; simp
  | cons t ts ih =>
    intro ks
    rw [List.foldl_cons]
    exact fun x hx => ih (keyStep ks t) (keyStep_sub ks t hx)

theorem mem_foldl_keyStep (tiles : List Tile) :
    ∀ (ks : List (Nat × Nat × Nat)) (u : Tile), u ∈ tiles →
      codeTileKey u ∈ tiles.foldl keyStep ks := by
  induction tiles with
  | nil => intro ks u hu; exact absurd hu (List.not_mem_nil u)
  | cons t ts ih =>
    intro ks u hu
    rw [List.foldl_cons]
    rcases List.mem_cons.mp hu with h1 | h2
    · rw [h1]
      exact foldl_keyStep_sub ts (keyStep ks t) (mem_keyStep_self ks t)
    · exact ih (keyStep ks t) u h2

theorem mem_foldl_keyStep_inv (tiles : List Tile) :
    ∀ (ks : List (Nat × Nat × Nat)) (k : Nat × Nat × Nat),
      k ∈ tiles.foldl keyStep ks → k ∈ ks ∨ ∃ u ∈ tiles, codeTileKey u = k := by
  induction tiles with
  | nil => intro ks k hk; exact Or.inl hk
  | cons t ts ih =>
    intro ks k hk
    rw [List.foldl_cons] at hk
    rcases ih (keyStep ks t) k hk with h1 | h2
    · unfold keyStep at h1
      split at h1
      · exact Or.inl h1
      · rcases List.mem_append.mp h1 with h3 | h4
        · exact Or.inl h3
        · exact Or.inr ⟨t, List.mem_cons_self t ts, (List.mem_singleton.mp h4).symm⟩
    · obtain ⟨u, hu, he⟩ := h2
      exact Or.inr ⟨u, List.mem_cons_of_mem t hu, he⟩

theorem foldl_keyStep_nodup (tiles : List Tile) :
    ∀ ks : List (Nat × Nat × Nat), ks.Nodup → (tiles.foldl keyStep ks).Nodup := by
  induction tiles with
  | nil => intro ks h; exact h
  | cons t ts ih =>
    intro ks h
    rw [List.foldl_cons]
    refine ih (keyStep ks t) ?_
    unfold keyStep
    split
    · exact h
    · rename_i hmem
      exact ((List.perm_append_singleton _ _).nodup_iff).mpr (List.nodup_cons.mpr ⟨hmem, h⟩)

theorem insertTile_map_key (areas : List Area) (t : Tile) :
    (OTBMWriter.insertTile areas t).map areaKey = keyStep (areas.map areaKey) t := by
  induction areas with
  | nil => simp [OTBMWriter.insertTile, keyStep, areaKey, codeTileKey]
  | cons a rest ih =>
    simp only [OTBMWriter.insertTile]
    by_cases hmatch : a.areaX = t.x &&& 0xFF00 ∧ a.areaY = t.y &&& 0xFF00 ∧ a.z = t.z
    · rw [if_pos hmatch]
      have hk : areaKey a = codeTileKey t := by
        simp only [areaKey, codeTileKey]
        rw [hmatch.1, hmatch.2.1, hmatch.2.2]
      simp only [List.map_cons, keyStep]
      rw [if_pos (List.mem_cons.mpr (Or.inl hk.symm))]
      rfl
    · rw [if_neg hmatch]
      have hk : areaKey a ≠ codeTileKey t := by
        intro hcon
        simp only [areaKey, codeTileKey, Prod.mk.injEq] at hcon
        exact hmatch hcon
      simp only [List.map_cons, ih, keyStep]
      by_cases hmem : codeTileKey t ∈ rest.map areaKey
      · rw [if_pos hmem, if_pos (List.mem_cons.mpr (Or.inr hmem))]
      · have hnotin : codeTileKey t ∉ areaKey a :: rest.map areaKey := by
          intro h
          rcases List.mem_cons.mp h with h1 | h2
          · exact Ne.symm hk h1
          · exact hmem h2
        rw [if_neg hmem, if_neg hnotin, List.cons_append]

theorem insertTile_char (areas : List Area) (t : Tile)
    (hnd : (areas.map areaKey).Nodup) :
    ∀ a' ∈ OTBMWriter.insertTile areas t,
      (a' ∈ areas ∧ areaKey a' ≠ codeTileKey t) ∨
      (areaKey a' = codeTileKey t ∧
        ((∃ a ∈ areas, areaKey a = codeTileKey t ∧
            a' = ⟨a.areaX, a.areaY, a.z, a.tiles ++ [t]⟩) ∨
          (codeTileKey t ∉ areas.map areaKey ∧
            a' = ⟨t.x &&& 0xFF00, t.y &&& 0xFF00, t.z, [t]⟩))) := by
  induction areas with
  | nil =>
    intro a' ha'
    simp only [OTBMWriter.insertTile, List.mem_singleton] at ha'
    refine Or.inr ⟨by rw [ha']; rfl, Or.inr ⟨by simp, ha'⟩⟩
  | cons a rest ih =>
    intro a' ha'
    simp only [OTBMWriter.insertTile] at ha'
    by_cases hmatch : a.areaX = t.x &&& 0xFF00 ∧ a.areaY = t.y &&& 0xFF00 ∧ a.z = t.z
    · rw [if_pos hmatch] at ha'
      have hk : areaKey a = codeTileKey t := by
        simp only [areaKey, codeTileKey]
        rw [hmatch.1, hmatch.2.1, hmatch.2.2]
      rcases List.mem_cons.mp ha' with h1 | h2
      · refine Or.inr ⟨by rw [h1, ← hk]; rfl, Or.inl ⟨a, List.mem_cons_self a rest, hk, h1⟩⟩
      · refine Or.inl ⟨List.mem_cons_of_mem a h2, ?_⟩
        have hnd' := List.nodup_cons.mp hnd
        intro hcon
        apply hnd'.1
        rw [hk, ← hcon]
        exact List.mem_map_of_mem areaKey h2
    · rw [if_neg hmatch] at ha'
      have hk : areaKey a ≠ codeTileKey t := by
        intro hcon
        simp only [areaKey, codeTileKey, Prod.mk.injEq] at hcon
        exact hmatch hcon
      rcases List.mem_cons.mp ha' with h1 | h2
      · exact Or.inl ⟨by rw [h1]; exact List.mem_cons_self a rest, by rw [h1]; exact hk⟩
      · rcases ih (List.nodup_cons.mp hnd).2 a' h2 with ⟨hm, hne⟩ | ⟨heq, hcase⟩
        · exact Or.inl ⟨List.mem_cons_of_mem a hm, hne⟩
        · rcases hcase with ⟨a2, ha2, he2, hu2⟩ | ⟨hnm, hnew⟩
          · exact Or.inr ⟨heq, Or.inl ⟨a2, List.mem_cons_of_mem a ha2, he2, hu2⟩⟩
          · refine Or.inr ⟨heq, Or.inr ⟨?_, hnew⟩⟩
            simp only [List.map_cons, List.mem_cons]
            rintro (h3 | h4)
            · exact hk h3.symm
            · exact hnm h4

theorem groupAux_inv (tiles : List Tile) :
    ∀ (areas : List Area) (processed : List Tile),
      (areas.map areaKey).Nodup →
      areas.map areaKey = processed.foldl keyStep [] →
      (∀ a ∈ areas, a.tiles = processed.filter fun u => codeTileKey u == areaKey a) →
      ((tiles.foldl OTBMWriter.insertTile areas).map areaKey =
        (processed ++ tiles).foldl keyStep []) ∧
      ((tiles.foldl OTBMWriter.insertTile areas).map areaKey).Nodup ∧
      (∀ a ∈ tiles.foldl OTBMWriter.insertTile areas,
        a.tiles = (processed ++ tiles).filter fun u => codeTileKey u == areaKey a) := by
  induction tiles with
  | nil =>
    intro areas processed h1 h2 h3
    simpa using ⟨h2, h1, h3⟩
  | cons t ts ih =>
    intro areas processed h1 h2 h3
    have hkey : (OTBMWriter.insertTile areas t).map areaKey = keyStep (areas.map areaKey) t :=
      insertTile_map_key areas t
    have h1' : ((OTBMWriter.insertTile areas t).map areaKey).Nodup := by
      rw [hkey]
      unfold keyStep
      split
      · exact h1
      · rename_i hmem
        exact ((List.perm_append_singleton _ _).nodup_iff).mpr (List.nodup_cons.mpr ⟨hmem, h1⟩)
    have h2' : (OTBMWriter.insertTile areas t).map areaKey =
        (processed ++ [t]).foldl keyStep [] := by
      rw [hkey, List.foldl_append, ← h2]
      rfl
    have h3' : ∀ a ∈ OTBMWriter.insertTile areas t,
        a.tiles = (processed ++ [t]).filter fun u => codeTileKey u == areaKey a := by
      intro a' ha'
      rcases insertTile_char areas t h1 a' ha' with ⟨hmem, hne⟩ | ⟨heq, hcase⟩
      · rw [List.filter_append, h3 a' hmem]
        have hfalse : (codeTileKey t == areaKey a') = false := by
          simp only [beq_eq_false_iff_ne]
          exact fun hcon => hne hcon.symm
        simp [List.filter_cons, hfalse]
      · rcases hcase with ⟨a, hamem, haeq, hup⟩ | ⟨hnotmem, hnew⟩
        · rw [hup]
          show a.tiles ++ [t] = (processed ++ [t]).filter fun u => codeTileKey u == areaKey a
          have htrue : (codeTileKey t == areaKey a) = true := by
            rw [haeq]
            exact beq_self_eq_true _
          rw [List.filter_append, ← h3 a hamem]
          simp [List.filter_cons, htrue]
        · rw [hnew]
          show [t] = (processed ++ [t]).filter fun u => codeTileKey u == codeTileKey t
          have hpf : processed.filter (fun u => codeTileKey u == codeTileKey t) = [] := by
            rw [List.filter_eq_nil_iff]
            intro u hu
            simp only [beq_iff_eq]
            intro hcon
            apply hnotmem
            rw [h2, ← hcon]
            exact mem_foldl_keyStep processed [] u hu
          rw [List.filter_append, hpf]
          simp [List.filter_cons]
    have := ih (OTBMWriter.insertTile areas t) (processed ++ [t]) h1' h2' h3'
    simpa [List.append_assoc] using this

theorem flatMap_congr_on {α β : Type} {l : List α} {f g : α → List β}
    (h : ∀ a ∈ l, f a = g a) : l.flatMap f = l.flatMap g := by
  induction l with
  | nil => rfl
  | cons a rest ih =>
    rw [List.flatMap_cons, List.flatMap_cons, h a (List.mem_cons_self a rest),
      ih fun x hx => h x (List.mem_cons_of_mem a hx)]

theorem flatMap_map_eq {α β γ : Type} (l : List α) (f : α → β) (g : β → List γ) :
    (l.map f).flatMap g = l.flatMap fun a => g (f a) := by
  induction l with
  | nil => rfl
  | cons a rest ih => rw [List.map_cons, List.flatMap_cons, List.flatMap_cons, ih]

theorem perm_flatMap_filter_key (keys : List (Nat × Nat × Nat)) :
    ∀ l : List Tile, keys.Nodup → (∀ u ∈ l, codeTileKey u ∈ keys) →
      List.Perm (keys.flatMap fun k0 => l.filter fun u => codeTileKey u == k0) l := by
  induction keys with
  | nil =>
    intro l _ hcov
    cases l with
    | nil => simp
    | cons u us => exact absurd (hcov u (List.mem_cons_self u us)) (List.not_mem_nil _)
  | cons k0 ks ih =>
    intro l hnd hcov
    rw [List.flatMap_cons]
    obtain ⟨hnm, hnd'⟩ := List.nodup_cons.mp hnd
    have hsplit :
        List.Perm
          (l.filter (fun u => codeTileKey u == k0) ++
            l.filter (fun u => !(codeTileKey u == k0))) l :=
      List.filter_append_perm _ l
    have hflat : ks.flatMap (fun k' => l.filter fun u => codeTileKey u == k') =
        ks.flatMap (fun k' =>
          (l.filter fun u => !(codeTileKey u == k0)).filter fun u => codeTileKey u == k') := by
      refine flatMap_congr_on fun k' hk' => ?_
      rw [List.filter_filter]
      refine (List.filter_congr fun u _ => ?_).symm
      have hne : k' ≠ k0 := fun hcon => hnm (hcon ▸ hk')
      cases hck : codeTileKey u == k'
      · simp
      · have : codeTileKey u = k' := by simpa using hck
        have : (codeTileKey u == k0) = false := by
          simp only [beq_eq_false_iff_ne]
          rw [this]
          exact hne
        simp [this]
    rw [hflat]
    refine List.Perm.trans (List.Perm.append_left _ (ih _ hnd' ?_)) hsplit
    intro u hu
    have hm := List.mem_filter.mp hu
    have : codeTileKey u ≠ k0 := by simpa using hm.2
    rcases List.mem_cons.mp (hcov u hm.1) with h1 | h2
    · exact absurd h1 this
    · exact h2

/-- Claim C8: the area grouping of `_writeMapData`.  (1) The produced
areas appear in first-seen key order, keyed by both coordinates
truncated to the nearest lower multiple of 256 plus the floor; (2)
every area's base coordinates are multiples of 256; (3) each area holds
exactly the input tiles bearing its key, in their input (insertion)
order; (4) the areas' tile lists together are a permutation of the
input list, so every input tile is assigned to exactly one area; (5)
each tile's encoded offsets from its area base lie in 0..255. -/
theorem group_areas_partition (tiles : List Tile)
    (hb : ∀ t ∈ tiles, t.x < 65536 ∧ t.y < 65536) :
    ((OTBMWriter.groupAreas tiles).map areaKey = areaKeysOrder tiles) ∧
    (∀ a ∈ OTBMWriter.groupAreas tiles, a.areaX % 256 = 0 ∧ a.areaY % 256 = 0) ∧
    (∀ a ∈ OTBMWriter.groupAreas tiles,
      a.tiles = tiles.filter fun u => specTileKey u == areaKey a) ∧
    List.Perm ((OTBMWriter.groupAreas tiles).flatMap Area.tiles) tiles ∧
    (∀ a ∈ OTBMWriter.groupAreas tiles, ∀ u ∈ a.tiles,
      u.x - a.areaX < 256 ∧ u.y - a.areaY < 256) := by
  obtain ⟨hkeys, hnodup, hchar⟩ :=
    groupAux_inv tiles [] [] (by simp) (by simp) (by simp)
  simp only [List.nil_append] at hkeys hnodup hchar
  have hkeys : (OTBMWriter.groupAreas tiles).map areaKey = tiles.foldl keyStep [] := hkeys
  have hnodup : ((OTBMWriter.groupAreas tiles).map areaKey).Nodup := hnodup
  have hchar : ∀ a ∈ OTBMWriter.groupAreas tiles,
      a.tiles = tiles.filter fun u => codeTileKey u == areaKey a := hchar
  have hkmem : ∀ a ∈ OTBMWriter.groupAreas tiles, ∃ u ∈ tiles, codeTileKey u = areaKey a := by
    intro a ha
    have : areaKey a ∈ tiles.foldl keyStep [] := by
      rw [← hkeys]
      exact List.mem_map_of_mem areaKey ha
    rcases mem_foldl_keyStep_inv tiles [] (areaKey a) this with h1 | h2
    · exact absurd h1 (List.not_mem_nil _)
    · exact h2
  refine ⟨?_, ?_, ?_, ?_, ?_⟩
  · rw [hkeys]
    have main : ∀ (l : List Tile) (ks : List (Nat × Nat × Nat)),
        (∀ t ∈ l, t.x < 65536 ∧ t.y < 65536) →
        l.foldl keyStep ks =
          l.foldl (fun ks t => if specTileKey t ∈ ks then ks else ks ++ [specTileKey t]) ks := by
      intro l
      induction l with
      | nil => intro ks _; rfl
      | cons t0 ts ih =>
        intro ks hbl
        rw [List.foldl_cons, List.foldl_cons]
        have he := codeTileKey_eq_specTileKey t0 (hbl t0 (List.mem_cons_self t0 ts)).1
          (hbl t0 (List.mem_cons_self t0 ts)).2
        rw [keyStep, he]
        exact ih _ fun u hu => hbl u (List.mem_cons_of_mem t0 hu)
    exact main tiles [] hb
  · intro a ha
    obtain ⟨u, hu, hue⟩ := hkmem a ha
    have h1 : a.areaX = u.x &&& 65280 ∧ a.areaY = u.y &&& 65280 := by
      have := hue
      simp only [codeTileKey, areaKey, Prod.mk.injEq] at this
      exact ⟨this.1.symm, this.2.1.symm⟩
    rw [h1.1, h1.2, land_ff00_eq u.x (hb u hu).1, land_ff00_eq u.y (hb u hu).2]
    simp [Nat.mul_mod_left]
  · intro a ha
    rw [hchar a ha]
    refine List.filter_congr fun u hu => ?_
    rw [codeTileKey_eq_specTileKey u (hb u hu).1 (hb u hu).2]
  · have hform : (OTBMWriter.groupAreas tiles).flatMap Area.tiles =
        ((OTBMWriter.groupAreas tiles).map areaKey).flatMap
          fun k0 => tiles.filter fun u => codeTileKey u == k0 := by
      rw [flatMap_map_eq]
      exact flatMap_congr_on fun a ha => hchar a ha
    rw [hform]
    refine perm_flatMap_filter_key _ tiles hnodup fun u hu => ?_
    rw [hkeys]
    exact mem_foldl_keyStep tiles [] u hu
  · intro a ha u hu
    rw [hchar a ha] at hu
    obtain ⟨hut, huk⟩ := List.mem_filter.mp hu
    have hue : codeTileKey u = areaKey a := by simpa using huk
    have h1 : a.areaX = u.x &&& 65280 ∧ a.areaY = u.y &&& 65280 := by
      simp only [codeTileKey, areaKey, Prod.mk.injEq] at hue
      exact ⟨hue.1.symm, hue.2.1.symm⟩
    rw [h1.1, h1.2, land_ff00_eq u.x (hb u hut).1, land_ff00_eq u.y (hb u hut).2]
    have hx := Nat.div_add_mod u.x 256
    have hy := Nat.div_add_mod u.y 256
    have hxm : u.x % 256 < 256 := Nat.mod_lt _ (by norm_num)
    have hym : u.y % 256 < 256 := Nat.mod_lt _ (by norm_num)
    omega

/-- Witness for C8: three concrete tiles spanning two areas. -/
theorem group_areas_partition_witness :
    (OTBMWriter.groupAreas
        [⟨1, 2, 7, 10, []⟩, ⟨300, 2, 7, 11, []⟩, ⟨5, 2, 7, 12, []⟩]).map areaKey =
      areaKeysOrder [⟨1, 2, 7, 10, []⟩, ⟨300, 2, 7, 11, []⟩, ⟨5, 2, 7, 12, []⟩] :=
  (group_areas_partition _ (by decide)).1

/-! ### Tile planning (claims C9, C4) -/

theorem mapGet_colorToTile_none (rest : List ColorEntry) (k : Nat)
    (h : k ∉ rest.map ColorEntry.hex) : mapGet (colorToTile rest) k = none := by
  induction rest with
  | nil => rfl
  | cons m rs ih =>
    simp only [List.map_cons, List.mem_cons] at h
    push_neg at h
    by_cases hpos : 0 < m.tileId
    · have hct : colorToTile (m :: rs) = (m.hex, m.tileId) :: colorToTile rs := by
        simp [colorToTile, List.filter_cons, hpos]
      rw [hct]
      have hskip : mapGet ((m.hex, m.tileId) :: colorToTile rs) k = mapGet (colorToTile rs) k := by
        simp only [mapGet, List.find?_cons]
        have : (m.hex == k) = false := by
          simp only [beq_eq_false_iff_ne]
          exact fun hcon => h.1 hcon.symm
        rw [this]
      rw [hskip]
      exact ih h.2
    · have hct : colorToTile (m :: rs) = colorToTile rs := by
        simp [colorToTile, List.filter_cons, hpos]
      rw [hct]
      exact ih h.2

theorem mapGet_colorToTile (mappings : List ColorEntry) (k : Nat)
    (hnd : (mappings.map ColorEntry.hex).Nodup) :
    mapGet (colorToTile mappings) k =
      match mappings.find? (fun m => m.hex == k) with
      | some e => if 0 < e.tileId then some e.tileId else none
      | none => none := by
  induction mappings with
  | nil => rfl
  | cons m rest ih =>
    have hnd2 : (m.hex ∉ rest.map ColorEntry.hex) ∧ (rest.map ColorEntry.hex).Nodup := by
      rw [List.map_cons] at hnd
      exact List.nodup_cons.mp hnd
    by_cases hk : m.hex = k
    · have hfind : (m :: rest).find? (fun m' => m'.hex == k) = some m := by
        rw [List.find?_cons_of_pos]
        simp [hk]
      rw [hfind]
      show mapGet (colorToTile (m :: rest)) k = if 0 < m.tileId then some m.tileId else none
      by_cases hpos : 0 < m.tileId
      · have hct : colorToTile (m :: rest) = (m.hex, m.tileId) :: colorToTile rest := by
          simp [colorToTile, List.filter_cons, hpos]
        rw [hct, if_pos hpos]
        simp [mapGet, List.find?_cons_of_pos, hk]
      · have hct : colorToTile (m :: rest) = colorToTile rest := by
          simp [colorToTile, List.filter_cons, hpos]
        rw [hct, if_neg hpos]
        exact mapGet_colorToTile_none rest k (hk ▸ hnd2.1)
    · have hfind : (m :: rest).find? (fun m' => m'.hex == k) =
          rest.find? (fun m' => m'.hex == k) := by
        rw [List.find?_cons_of_neg]
        simp [hk]
      rw [hfind]
      by_cases hpos : 0 < m.tileId
      · have hct : colorToTile (m :: rest) = (m.hex, m.tileId) :: colorToTile rest := by
          simp [colorToTile, List.filter_cons, hpos]
        rw [hct]
        have hskip : mapGet ((m.hex, m.tileId) :: colorToTile rest) k =
            mapGet (colorToTile rest) k := by
          simp only [mapGet, List.find?_cons]
          have : (m.hex == k) = false := by
            simp only [beq_eq_false_iff_ne]
            exact hk
          rw [this]
        rw [hskip]
        exact ih hnd2.2
      · have hct : colorToTile (m :: rest) = colorToTile rest := by
          simp [colorToTile, List.filter_cons, hpos]
        rw [hct]
        exact ih hnd2.2

theorem planPixel_opaque_char (mappings : List ColorEntry)
    (transparentId z offX offY x y : Nat) (p : RGBA)
    (hnd : (mappings.map ColorEntry.hex).Nodup) (hp : ¬(p.a < 128)) :
    planPixel (colorToTile mappings) transparentId z offX offY x y p =
      match mappings.find? (fun m => m.hex == rgbToHex p.r p.g p.b) with
      | some e => if 0 < e.tileId then [⟨x + offX, y + offY, z, e.tileId, []⟩] else []
      | none => [] := by
  simp only [planPixel, if_neg hp]
  rw [mapGet_colorToTile _ _ hnd]
  cases hf : mappings.find? (fun m => m.hex == rgbToHex p.r p.g p.b) with
  | none => rfl
  | some e =>
    by_cases hpos : 0 < e.tileId
    · have hne : e.tileId ≠ 0 := by omega
      simp [hpos, hne]
    · simp [hpos]

/-- Claim C9: the tile planner never emits a tile with `groundId = 0`.
A transparent pixel (alpha below 128) yields a tile exactly when
`transparentId` is positive (with that ground id); an opaque pixel
yields a tile exactly when its palette entry has a positive tile id
(with that id); all other pixels are skipped. -/
theorem planner_no_zero_ground (mappings : List ColorEntry)
    (transparentId z offX offY width height : Nat) (pixels : List RGBA)
    (hnd : (mappings.map ColorEntry.hex).Nodup) :
    (∀ t ∈ planTiles pixels width height (colorToTile mappings) transparentId z offX offY,
      0 < t.groundId) ∧
    (∀ (x y : Nat) (p : RGBA), p.a < 128 →
      planPixel (colorToTile mappings) transparentId z offX offY x y p =
        if 0 < transparentId then [⟨x + offX, y + offY, z, transparentId, []⟩] else []) ∧
    (∀ (x y : Nat) (p : RGBA), 128 ≤ p.a →
      planPixel (colorToTile mappings) transparentId z offX offY x y p =
        match mappings.find? (fun m => m.hex == rgbToHex p.r p.g p.b) with
        | some e => if 0 < e.tileId then [⟨x + offX, y + offY, z, e.tileId, []⟩] else []
        | none => []) := by
  refine ⟨?_, ?_, ?_⟩
  · intro t ht
    simp only [planTiles, List.mem_flatMap, List.mem_range] at ht
    obtain ⟨y, _, x, _, hmem⟩ := ht
    by_cases ha : (pixels.getD (y * width + x) ⟨0, 0, 0, 0⟩).a < 128
    · simp only [planPixel, if_pos ha] at hmem
      by_cases htr : 0 < transparentId
      · rw [if_pos htr] at hmem
        rw [List.mem_singleton.mp hmem]
        exact htr
      · rw [if_neg htr] at hmem
        exact absurd hmem (List.not_mem_nil t)
    · rw [planPixel_opaque_char mappings transparentId z offX offY x y _ hnd ha] at hmem
      rcases hf : mappings.find? (fun m =>
          m.hex == rgbToHex (pixels.getD (y * width + x) ⟨0, 0, 0, 0⟩).r
            (pixels.getD (y * width + x) ⟨0, 0, 0, 0⟩).g
            (pixels.getD (y * width + x) ⟨0, 0, 0, 0⟩).b) with _ | e
      · rw [hf] at hmem
        exact absurd hmem (List.not_mem_nil t)
      · rw [hf] at hmem
        replace hmem : t ∈ if 0 < e.tileId then
            [(⟨x + offX, y + offY, z, e.tileId, []⟩ : Tile)] else [] := hmem
        by_cases hpos : 0 < e.tileId
        · rw [if_pos hpos] at hmem
          rw [List.mem_singleton.mp hmem]
          exact hpos
        · rw [if_neg hpos] at hmem
          exact absurd hmem (List.not_mem_nil t)
  · intro x y p hp
    simp [planPixel, if_pos hp]
  · intro x y p hp
    exact planPixel_opaque_char mappings transparentId z offX offY x y p hnd (by omega)

/-- Witness for C9: a transparent pixel with a positive transparent
tile id yields exactly one tile with that ground id. -/
theorem planner_no_zero_ground_witness :
    planPixel (colorToTile [⟨66051, (1, 2, 3), 44, 2⟩]) 7 3 10 20 0 0 ⟨9, 9, 9, 0⟩ =
      [⟨10, 20, 3, 7, []⟩] :=
  (planner_no_zero_ground [⟨66051, (1, 2, 3), 44, 2⟩] 7 3 10 20 1 1 [] (by decide)).2.1
    0 0 ⟨9, 9, 9, 0⟩ (by decide)

/-- Claim C4: when the clamped offsets plus the image dimensions exceed
65535 on either axis, `_generateOTBM` reports the coordinate-overflow
condition and returns before any tiles are planned or bytes produced
(the check precedes writer construction and the pixel loop). -/
theorem generateOTBM_overflow (img : ImageInput) (colorMappings : List ColorEntry)
    (tpc : Nat) (tIn zIn oxIn oyIn : Int) (cc : Option ClientConfig)
    (look : Nat → Option OTBVersionInfo)
    (hover : 65535 < (max 0 oxIn).toNat + img.width ∨
      65535 < (max 0 oyIn).toNat + img.height) :
    generateOTBM img colorMappings tpc tIn zIn oxIn oyIn true cc look =
      .error .coordinateOverflow := by
  simp only [generateOTBM]
  rw [if_neg (by simp), if_pos hover]

/-- Witness for C4: scenario C, a 1x1 image at offsetX = 65535. -/
theorem generateOTBM_overflow_witness :
    generateOTBM ⟨1, 1, [⟨0, 0, 0, 255⟩]⟩ [⟨0, (0, 0, 0), 5, 1⟩] 0 0 7 65535 0 true none
      (fun _ => none) = .error .coordinateOverflow :=
  generateOTBM_overflow ⟨1, 1, [⟨0, 0, 0, 255⟩]⟩ [⟨0, (0, 0, 0), 5, 1⟩] 0 0 7 65535 0 none
    (fun _ => none) (by decide)

/-- Claim C10, counterexample: the core does not reject out-of-range
tile ids.  `addTile` stores the id 65536 unchanged, and the writer
serializes a map whose single tile has ground id 65536 to exactly the
same bytes as one whose tile has ground id 0: the id is silently
wrapped, no error is signalled. -/
theorem out_of_range_id_not_rejected :
    OTBMWriter.addTile ⟨3, 3, [], [], 2, 2, 7⟩ 0 0 7 65536 [] =
      ⟨3, 3, [], [⟨0, 0, 7, 65536, []⟩], 2, 2, 7⟩ ∧
    OTBMWriter.generate ⟨3, 3, [], [⟨0, 0, 7, 65536, []⟩], 2, 2, 7⟩ =
      OTBMWriter.generate ⟨3, 3, [], [⟨0, 0, 7, 0, []⟩], 2, 2, 7⟩ := by
  exact ⟨rfl, by decide⟩

/-- Claim C10, amended: the encoding core performs no range validation
on tile ids: `addTile` accepts any id unchanged, and the u16
serialization reduces the value modulo 65536 (each constituent byte is
masked with `& 0xFF`), silently wrapping out-of-range ids. -/
theorem writer_wraps_ids_mod_65536 :
    (∀ (w : OTBMWriter) (x y z g : Nat) (items : List Nat),
      OTBMWriter.addTile w x y z g items = { w with tiles := w.tiles ++ [⟨x, y, z, g, items⟩] }) ∧
    ∀ v : Nat, OTBMWriter.writeU16 v = OTBMWriter.writeU16 (v % 65536) := by
  refine ⟨fun w x y z g items => rfl, fun v => ?_⟩
  have h1 : v % 65536 % 256 = v % 256 := by omega
  have h2 : v % 65536 / 256 % 256 = v / 256 % 256 := by omega
  rw [OTBMWriter.writeU16, OTBMWriter.writeU16, h1, h2]

end PngToOtbm
